import Mathlib

/-!
Verification of the llm-trader-battle core (calendar-aware return
aggregation pipeline) against its natural-language specification.

Shallow embedding conventions:
* Calendar dates are day numbers (`Nat`) with day 0 a Monday.  Python
  `date` arithmetic is plain day arithmetic and
  `weekday (d + k) = (weekday d + k) % 7`, so this encoding is faithful.
* The national holiday table (`jpholiday`) and the manual closed-date
  override list are external data; they are passed in as predicates in a
  `Cal` record.
* Prices are rationals (`ℚ`); JSON `null` is `Option.none`.
* Python dicts appear as association lists with unique keys; dict
  assignment is `upsert` (replace in place, or append a fresh key).
* Python code that can raise returns `Except`.
-/

namespace LlmTrader

/-- Calendar environment: the external holiday table and the cached
manual closed-date set (`manual_closed_dates` in market_calendar.py). -/
structure Cal where
  hol : Nat → Bool
  manualClosed : Nat → Bool

/-- Python `date.weekday()`: Monday = 0 … Sunday = 6. -/
def weekday (d : Nat) : Nat := d % 7

/-- market_calendar.is_trading_day: false on Saturday/Sunday, on a
holiday, or on a manually closed date. -/
def is_trading_day (cal : Cal) (d : Nat) : Bool :=
  if 5 ≤ weekday d then false
  else if cal.hol d then false
  else if cal.manualClosed d then false
  else true

/-- market_calendar.week_start_for: `d - timedelta(days=d.weekday())`. -/
def week_start_for (d : Nat) : Nat := d - weekday d

/-- market_calendar.trading_days_in_week: the trading days among the 7
consecutive dates starting at `week_start`, in ascending offset order. -/
def trading_days_in_week (cal : Cal) (week_start : Nat) : List Nat :=
  ((List.range 7).map (fun offset => week_start + offset)).filter
    (fun candidate => is_trading_day cal candidate)

/-- market_calendar.week_final_trading_day:
`max(days) if days else None`. -/
def week_final_trading_day (cal : Cal) (week_start : Nat) : Option Nat :=
  (trading_days_in_week cal week_start).max?

/-- market_calendar.is_week_final_trading_day: compares the date with the
final trading day of its own week (`last == d`; Python `None == d` is
false, matching `Option` equality with `some d`). -/
def is_week_final_trading_day (cal : Cal) (d : Nat) : Bool :=
  week_final_trading_day cal (week_start_for d) == some d

/-- market_calendar.next_trading_day is the unbounded loop
`while not is_trading_day(d): d += 1`.  The embedding indexes the loop by
the number of loop-condition checks performed; `none` means the loop has
not returned within that many checks (it is still running). -/
def next_trading_day_fuel (cal : Cal) : Nat → Nat → Option Nat
  | 0, _ => none
  | fuel + 1, d =>
    if is_trading_day cal d then some d
    else next_trading_day_fuel cal fuel (d + 1)

/-! ## Association-list dictionaries

Python dicts (JSON objects, and the stores backed by one file per key)
are modelled as association lists with unique keys.  `upsert` is dict
assignment: replace the value of an existing key in place, otherwise
append the new key at the end (Python dicts keep first-insertion key
order). -/

/-- Dict lookup `m.get(k)` (returns `none` when the key is absent). -/
def alookup [DecidableEq κ] : List (κ × β) → κ → Option β
  | [], _ => none
  | e :: rest, k => if e.1 = k then some e.2 else alookup rest k

/-- Dict key-membership `k in m`. -/
def containsKey [DecidableEq κ] (m : List (κ × β)) (k : κ) : Bool :=
  m.any (fun e => e.1 = k)

/-- Dict assignment `m[k] = v`: replace the value of an existing key in
place, otherwise append the new key at the end. -/
def upsert [DecidableEq κ] : List (κ × β) → κ → β → List (κ × β)
  | [], k, v => [(k, v)]
  | e :: rest, k, v => if e.1 = k then (k, v) :: rest else e :: upsert rest k v

/-! ## Price snapshots and the Price Store (prices.py) -/

/-- One symbol's daily snapshot; only the `open`/`close` fields take part
in any computation under verification (`high`/`low` are fetched and
persisted but never read back). JSON `null` is `none`. -/
structure Snap where
  openP : Option ℚ
  closeP : Option ℚ
deriving DecidableEq

abbrev Sym := String

/-- prices.save_daily_prices: `dump_json(flat_prices_json_path(d), payload)`
executed twice — each dump rewrites the whole file for date `d` with the
new payload.  The store is payload-polymorphic because the function never
inspects the payload. -/
def save_daily_prices (store : List (Nat × α)) (d : Nat) (payload : α) :
    List (Nat × α) :=
  upsert (upsert store d payload) d payload

/-- prices.load_daily_prices: read back the JSON file for date `d`,
`none` when absent. -/
def load_daily_prices (store : List (Nat × α)) (d : Nat) : Option α :=
  alookup store d

/-! ## Return computation (report.py) -/

/-- Loop body of report.compute_returns for one symbol:
`None` if either side is missing, otherwise `(close - open) / open`.
Python raises `ZeroDivisionError` when `open_p` is zero and a division is
attempted; the embedding surfaces that as `Except.error`. -/
def compute_return1 (values : Snap) : Except Unit (Option ℚ) :=
  match values.openP, values.closeP with
  | some open_p, some close_p =>
    if open_p = 0 then .error ()
    else .ok (some ((close_p - open_p) / open_p))
  | _, _ => .ok none

/-- report.compute_returns: per-symbol returns over a snapshot map, in
dict iteration order; a `ZeroDivisionError` aborts the whole call at the
offending entry. -/
def compute_returns : List (Sym × Snap) → Except Unit (List (Sym × Option ℚ))
  | [] => .ok []
  | p :: rest =>
    match compute_return1 p.2 with
    | .error err => .error err
    | .ok r =>
      match compute_returns rest with
      | .error err => .error err
      | .ok rs => .ok ((p.1, r) :: rs)

/-- Flattened dict lookup into an optional-valued map: Python
`returns.get(s)` is `None` both when the key is absent and when the
stored value is null. -/
def getOptVal [DecidableEq κ] (m : List (κ × Option β)) (k : κ) : Option β :=
  match alookup m k with
  | some v => v
  | none => none

/-- A model's pick as used by the aggregation layer:
`{"model": p.model, "symbols": p.symbols}`. -/
structure PickD where
  model : String
  symbols : List Sym
deriving DecidableEq

/-- Loop body of report.compute_llm_avg for one pick:
`vals = [returns.get(s) for s in symbols if returns.get(s) is not None]`
then `sum(vals) / len(vals) if vals else None`. -/
def model_avg (returns : List (Sym × Option ℚ)) (symbols : List Sym) :
    Option ℚ :=
  let vals := symbols.filterMap (fun s => getOptVal returns s)
  if vals.isEmpty then none else some (vals.sum / (vals.length : ℚ))

/-- report.compute_llm_avg: per-model average of the defined returns of
that model's picked symbols. -/
def compute_llm_avg (picks : List PickD) (returns : List (Sym × Option ℚ)) :
    List (String × Option ℚ) :=
  picks.foldl (fun per_model p => upsert per_model p.model (model_avg returns p.symbols)) []

/-! ## Buy-price resolution (report.find_week_buy_prices) -/

/-- The Price Store as read by the resolver: `load_daily_prices(d)`,
i.e. the persisted snapshot map for each date, `none` when no file. -/
abbrev PriceStore := Nat → Option (List (Sym × Snap))

/-- `day_prices.get(s, {}).get("open")` with the isinstance guard:
the open price of `s` in one day's snapshot map, if any. -/
def day_open (day_prices : List (Sym × Snap)) (s : Sym) : Option ℚ :=
  match alookup day_prices s with
  | some v => v.openP
  | none => none

/-- `buys = {s: None for s in symbols}` — a dict keyed by the symbols in
first-occurrence order, every value `None`. -/
def init_buys (symbols : List Sym) : List (Sym × Option ℚ) :=
  symbols.foldl (fun acc s => if containsKey acc s then acc else acc ++ [(s, none)]) []

/-- `buys[s] = val`: set the (unique) entry of key `s`, no-op when the
key is absent. -/
def set_buy : List (Sym × Option ℚ) → Sym → ℚ → List (Sym × Option ℚ)
  | [], _, _ => []
  | e :: rest, s, v => if e.1 = s then (s, v) :: rest else e :: set_buy rest s v

/-- Inner loop of find_week_buy_prices over one day:
for each symbol still unresolved, adopt that day's non-null open. -/
def scan_day (day_prices : List (Sym × Snap)) :
    List Sym → List (Sym × Option ℚ) → List (Sym × Option ℚ)
  | [], buys => buys
  | s :: rest, buys =>
    scan_day day_prices rest
      (if (getOptVal buys s).isNone then
        match day_open day_prices s with
        | some val => set_buy buys s val
        | none => buys
      else buys)

/-- Outer loop of find_week_buy_prices over the week's trading days:
break once a day is past `upto` (the target date), and break early once
every symbol's buy price is determined. -/
def fwbp_loop (store : PriceStore) (symbols : List Sym) (upto : Nat) :
    List Nat → List (Sym × Option ℚ) → List (Sym × Option ℚ)
  | [], buys => buys
  | d :: rest, buys =>
    if upto < d then buys
    else
      let day_prices := (store d).getD []
      let buys1 := scan_day day_prices symbols buys
      if buys1.all (fun e => e.2.isSome) then buys1
      else fwbp_loop store symbols upto rest buys1

/-- report.find_week_buy_prices: resolve each symbol's buy price from the
week's trading days up to and including the target date. -/
def find_week_buy_prices (cal : Cal) (store : PriceStore) (symbols : List Sym)
    (week_start upto : Nat) : List (Sym × Option ℚ) :=
  fwbp_loop store symbols upto (trading_days_in_week cal week_start) (init_buys symbols)

/-- Specification-side buy price (spec §4.4, for the refinement claim):
the first non-null open for the symbol over the week's trading days that
are not after the target date, in ascending order; null when there is
none. -/
def buy_price_spec (cal : Cal) (store : PriceStore) (s : Sym)
    (week_start upto : Nat) : Option ℚ :=
  ((trading_days_in_week cal week_start).filter (fun d => d ≤ upto)).findSome?
    (fun d => day_open ((store d).getD []) s)

/-! ## Pick generation (picks.py) -/

/-- An LLM client response (`PickResponse` in llm_clients/base.py),
after successful extraction. -/
structure PickResp where
  symbols : List Sym
  reasons : List String
  methods : List String
deriving DecidableEq

/-- One model's saved pick (`LlmPick`, minus the timestamp, which no
claim touches). -/
structure LlmPick where
  model : String
  symbols : List Sym
  reasons : List String
  methods : List String
deriving DecidableEq

/-- The per-model loop of picks.generate_llm_picks.  `gen` is the
external LLM capability: `client.generate(...)`, which either returns a
response or raises (configuration/parse failure).  There is no
try/except around the body: any `.error` propagates out of the loop. -/
def generate_llm_picks_go (gen : String → Except String PickResp) :
    List String → List LlmPick → Except String (List LlmPick)
  | [], picks => .ok picks
  | model :: rest, picks =>
    match gen model with
    | .error e => .error e
    | .ok resp =>
      let symbols := resp.symbols.take 2
      let reasons := if resp.reasons.isEmpty then List.replicate symbols.length "" else resp.reasons.take 2
      let methods := if resp.methods.isEmpty then List.replicate symbols.length "" else resp.methods.take 2
      if symbols.length < 2 then .error ("insufficient picks returned for " ++ model)
      else generate_llm_picks_go gen rest (picks ++ [⟨model, symbols, reasons, methods⟩])

/-- picks.generate_llm_picks: generate every requested model's pick;
`save_picks` runs only after the loop finishes, so the `.ok` value is
exactly the list that gets saved and `.error` means nothing is saved. -/
def generate_llm_picks (gen : String → Except String PickResp)
    (models : List String) : Except String (List LlmPick) :=
  generate_llm_picks_go gen models []

/-! ## The aggregate-daily pipeline (cli.handle_aggregate_daily)

The pipeline reads the current picks and the price store, computes the
daily result, persists it, and rebuilds the month's summary from the
persisted daily results.  External inputs that the run only reads are
collected in `Env`; the files it writes are the `AggState` stores.  The
markdown/chart renderers (`summarize_daily`, `plot_llm_line`,
`update_month_summary`) are deterministic functions of the structured
values recorded here plus `Env`, so the persisted artifacts are modelled
by those structured values. -/

/-- One entry of a persisted picks file (`picks-<weekId>.json`):
symbol, reason and method strings. -/
structure PickEntry where
  symbol : String
  reason : String
  method : String
deriving DecidableEq

/-- Read-only inputs of one aggregate-daily invocation. -/
structure Env where
  cal : Cal
  /-- `strftime("%Y%m")`-style month classifier of a date (abstract: the
  embedding only needs that it is a function of the date). -/
  monthOf : Nat → Nat
  /-- current.json picks (the run never writes picks). -/
  picks : List PickD
  /-- the persisted picks files, keyed by week id. -/
  picksFiles : List (Nat × List (String × List PickEntry))
  /-- the persisted daily price snapshots (the run never writes prices). -/
  prices : PriceStore
  /-- `llm_model_map`: the per-model identifier from the environment. -/
  modelOf : String → Option String
  /-- the target date. -/
  target : Nat

/-- The persisted daily result (`result-<date>.json`). -/
structure Payload where
  llm_models : List (String × Option String)
  llm_avg : List (String × Option ℚ)
  per_symbol : List (Sym × (Option ℚ × Option ℚ))
deriving DecidableEq

/-- Structured content of the week-final report: the inputs of
`summarize_week_final`. -/
structure WeekArt where
  week_end : Nat
  picksW : List PickD
  week_prices : List (Sym × (Option ℚ × Option ℚ))
deriving DecidableEq

/-- One row of the month's holdings roll-up. -/
structure Holding where
  week_start : Nat
  week_end : Nat
  model : String
  picksH : List PickEntry
deriving DecidableEq

/-- Structured content of the month's summary: the arguments of
`update_month_summary` (plus the chart state). -/
structure MonthArt where
  llms : List String
  table : List (Nat × List (String × Option ℚ))
  chartFlag : Bool
  holds : Option (List Holding)
  week_finals : Option (List Nat)
deriving DecidableEq

/-- The files an aggregate-daily run writes. -/
structure AggState where
  results : List (Nat × Payload)
  weekly : List (Nat × WeekArt)
  monthly : List (Nat × MonthArt)
  /-- months whose `summary.png` chart file exists. -/
  charts : List Nat
deriving DecidableEq

/-- `returns_per_symbol`: per symbol, the resolved buy open and today's
close (cli lines 73-78). -/
def build_rps (symbols : List Sym) (buys : List (Sym × Option ℚ))
    (today : List (Sym × Snap)) : List (Sym × (Option ℚ × Option ℚ)) :=
  symbols.foldl
    (fun acc s =>
      upsert acc s (getOptVal buys s,
        match alookup today s with
        | some v => v.closeP
        | none => none))
    []

/-- The per-model average loop of cli lines 82-90: collect
`(close - buy) / buy` over the pick's symbols where both are non-null.
Python raises `ZeroDivisionError` on a zero buy price, surfaced as
`Except.error` (report.summarize_daily divides the same pairs first and
would raise on exactly the same condition). -/
def llm_avg_cli (picks : List PickD)
    (rps : List (Sym × (Option ℚ × Option ℚ))) :
    Except Unit (List (String × Option ℚ)) :=
  picks.foldlM
    (fun acc p => do
      let vals ← p.symbols.foldlM
        (fun vs s =>
          match alookup rps s with
          | some (some buy, some close) =>
            if buy = 0 then .error ()
            else .ok (vs ++ [(close - buy) / buy])
          | _ => .ok vs)
        ([] : List ℚ)
      .ok (upsert acc p.model (if vals.isEmpty then none else some (vals.sum / (vals.length : ℚ)))))
    []

/-- The holdings roll-up (cli lines 134-165): one row per (week, model)
among the month's persisted picks files, with the week end taken from
the calendar (or `week_start + 4` for a week with no trading day). -/
def holdings_for (e : Env) : List Holding :=
  (e.picksFiles.filter (fun f => e.monthOf f.1 = e.monthOf e.target)).flatMap
    (fun f =>
      let week_end := (week_final_trading_day e.cal f.1).getD (f.1 + 4)
      f.2.map (fun me => ⟨f.1, week_end, me.1, me.2⟩))

/-- Ascending sort of date keys (Python `sorted`). -/
def insSorted (x : Nat) : List Nat → List Nat
  | [] => [x]
  | y :: ys => if x ≤ y then x :: y :: ys else y :: insSorted x ys

/-- Ascending sort of date keys (Python `sorted`). -/
def sortKeys (l : List Nat) : List Nat := l.foldr insSorted []

/-- Ascending insertion step for model-name sorting. -/
def insSortedStr (x : String) : List String → List String
  | [] => [x]
  | y :: ys => if x ≤ y then x :: y :: ys else y :: insSortedStr x ys

/-- `sorted(llm_names)` for a set of model names. -/
def sortModels (l : List String) : List String :=
  (l.dedup).foldr insSortedStr []

/-- The all-null-day filter (cli line 130): keep only the days where at
least one model's value is non-null. -/
def filter_all_null (daily : List (Nat × List (String × Option ℚ))) :
    List (Nat × List (String × Option ℚ)) :=
  daily.filter (fun r => r.2.any (fun v => v.2.isSome))

/-- The week-final marking (cli lines 171-178): the included days that
are week-final trading days. -/
def week_finals_of (cal : Cal) (days : List Nat) : List Nat :=
  days.filter (fun d => is_week_final_trading_day cal d)

/-- One table row of report.update_month_summary (lines 318-324): per
model column, the formatted value, with null rendered as "N/A".  The
numeric format `f-string {value:.2%}` is exterior string rendering and
is passed in as `fmt`. -/
def render_row (fmt : ℚ → String) (llms : List String)
    (scores : List (String × Option ℚ)) : List String :=
  llms.map (fun llm =>
    match getOptVal scores llm with
    | some value => fmt value
    | none => "N/A")

/-- Modelled from the spec: cli.py imports `summarize_week_final` /
`save_week_final_report` and passes `week_finals=` to
`update_month_summary`, but the `report.py` in this snapshot predates
those (its `update_month_summary` takes no `week_finals` argument), so
the flag-carrying monthly table itself is missing from the sources.
Per the spec the monthly output is the table of included days sorted
ascending by date, each row carrying a flag marking whether that day was
a week-final trading day. -/
def month_table (filtered : List (Nat × List (String × Option ℚ)))
    (week_finals : List Nat) : List (Nat × Bool) :=
  (sortKeys (filtered.map (fun r => r.1))).map (fun d => (d, week_finals.contains d))

/-- The monthly-summary section of cli lines 113-188, computed from the
daily-result store as it stands after the current date's result was
written (the write at line 98 happens before the glob at line 118).
`chartBefore` records whether the month's chart file already existed. -/
def month_art (e : Env) (results1 : List (Nat × Payload))
    (avg : List (String × Option ℚ)) (chartBefore : Bool) :
    MonthArt × Bool :=
  let daily0 := (results1.filter (fun r => e.monthOf r.1 = e.monthOf e.target)).map
    (fun r => (r.1, r.2.llm_avg))
  let llm_names0 := daily0.flatMap (fun r => r.2.map (fun v => v.1))
  let daily1 := upsert daily0 e.target avg
  let llm_names1 := llm_names0 ++ avg.map (fun v => v.1)
  let filtered := filter_all_null daily1
  let llm_list := sortModels llm_names1
  let holdings := holdings_for e
  let days_sorted := sortKeys (filtered.map (fun r => r.1))
  let week_finals := week_finals_of e.cal (filtered.map (fun r => r.1))
  let chartWrite := !days_sorted.isEmpty && !llm_list.isEmpty
  let chartFlag := chartWrite || chartBefore
  (⟨llm_list, filtered, chartFlag,
    (if holdings.isEmpty then none else some holdings),
    (if week_finals.isEmpty then none else some week_finals)⟩,
   chartWrite)

/-- The daily-result JSON payload (cli lines 92-97). -/
def agg_payload (e : Env) (avg : List (String × Option ℚ))
    (rps : List (Sym × (Option ℚ × Option ℚ))) : Payload :=
  ⟨(sortModels (avg.map (fun v => v.1))).map (fun k => (k, e.modelOf k)), avg, rps⟩

/-- The daily-result write (save_daily_result at cli line 98). -/
def agg_results (e : Env) (avg : List (String × Option ℚ))
    (rps : List (Sym × (Option ℚ × Option ℚ))) (s : AggState) :
    List (Nat × Payload) :=
  upsert s.results e.target (agg_payload e avg rps)

/-- The week-final report write (cli lines 100-111), performed only on
the week's last trading day. -/
def agg_weekly (e : Env) (rps : List (Sym × (Option ℚ × Option ℚ)))
    (s : AggState) : List (Nat × WeekArt) :=
  if is_week_final_trading_day e.cal e.target then
    upsert s.weekly (week_start_for e.target) ⟨e.target, e.picks, rps⟩
  else s.weekly

/-- The month summary computed from the just-written results store. -/
def agg_ma (e : Env) (avg : List (String × Option ℚ))
    (rps : List (Sym × (Option ℚ × Option ℚ))) (s : AggState) :
    MonthArt × Bool :=
  month_art e (agg_results e avg rps s) avg
    (s.charts.contains (e.monthOf e.target))

/-- The month chart file state after the run: `plot_llm_line` writes
`summary.png` when it has any day and any model to draw. -/
def agg_charts (e : Env) (avg : List (String × Option ℚ))
    (rps : List (Sym × (Option ℚ × Option ℚ))) (s : AggState) : List Nat :=
  if (agg_ma e avg rps s).2 then
    (if s.charts.contains (e.monthOf e.target) then s.charts
     else s.charts ++ [e.monthOf e.target])
  else s.charts

/-- All the writes of one successful aggregate-daily run: the daily
result, the week-final report when due, the month chart and the month
summary. -/
def agg_writes (e : Env) (avg : List (String × Option ℚ))
    (rps : List (Sym × (Option ℚ × Option ℚ))) (s : AggState) : AggState :=
  ⟨agg_results e avg rps s, agg_weekly e rps s,
   upsert s.monthly (e.monthOf e.target) (agg_ma e avg rps s).1,
   agg_charts e avg rps s⟩

/-- The pure computation of one aggregate-daily run (everything before
any write): guards, buy-price resolution, per-symbol table, per-model
averages.  `.error` models `SystemExit` / an uncaught exception. -/
def agg_data (e : Env) :
    Except Unit ((List (String × Option ℚ)) × List (Sym × (Option ℚ × Option ℚ))) :=
  if e.picks.isEmpty then .error ()
  else
    match e.prices e.target with
    | none => .error ()
    | some today =>
      if today.isEmpty then .error ()
      else
        let symbols := e.picks.flatMap (fun p => p.symbols)
        let buys := find_week_buy_prices e.cal e.prices symbols
          (week_start_for e.target) e.target
        let rps := build_rps symbols buys today
        match llm_avg_cli e.picks rps with
        | .error err => .error err
        | .ok avg => .ok (avg, rps)

/-- cli.handle_aggregate_daily: a non-trading target date is a logged
skip (`.ok` with the state unchanged); otherwise compute from the
read-only inputs and perform the writes.  On `.error` none of the
writes happens. -/
def aggregate_daily (e : Env) (s : AggState) : Except Unit AggState :=
  if is_trading_day e.cal e.target = false then .ok s
  else
    match agg_data e with
    | .error err => .error err
    | .ok ar => .ok (agg_writes e ar.1 ar.2 s)

/-! ## Dictionary lemmas -/

theorem containsKey_eq_false_iff [DecidableEq κ] {m : List (κ × β)} {k : κ} :
    containsKey m k = false ↔ ∀ e ∈ m, e.1 ≠ k := by
  simp [containsKey]

theorem alookup_append [DecidableEq κ] (m1 m2 : List (κ × β)) (k : κ) :
    alookup (m1 ++ m2) k = (alookup m1 k).orElse (fun _ => alookup m2 k) := by
  induction m1 with
  | nil => simp [alookup]
  | cons e rest ih =>
    by_cases h : e.1 = k <;> simp [alookup, h, ih]

theorem alookup_upsert_self [DecidableEq κ] (m : List (κ × β)) (k : κ) (v : β) :
    alookup (upsert m k v) k = some v := by
  induction m with
  | nil => simp [upsert, alookup]
  | cons e rest ih =>
    by_cases h : e.1 = k <;> simp [upsert, alookup, h, ih]

theorem alookup_upsert_ne [DecidableEq κ] (m : List (κ × β)) (k k' : κ) (v : β)
    (h : k' ≠ k) : alookup (upsert m k v) k' = alookup m k' := by
  induction m with
  | nil => simp [upsert, alookup, Ne.symm h]
  | cons e rest ih =>
    by_cases he : e.1 = k
    · simp [upsert, alookup, he, Ne.symm h]
    · by_cases he' : e.1 = k' <;> simp [upsert, alookup, he, he', ih, h]

theorem upsert_idem [DecidableEq κ] (m : List (κ × β)) (k : κ) (v : β) :
    upsert (upsert m k v) k v = upsert m k v := by
  induction m with
  | nil => simp [upsert]
  | cons e rest ih =>
    by_cases h : e.1 = k
    · simp [upsert, h]
    · simp [upsert, h, ih]

/-! ## Claim C3: the Price Store write is an overwrite, not a merge -/

/-- Claim C3 counterexample: writing `{AAA: {open:1, close:2}}` and then
`{AAA: {open:null, close:null}}` for the same date stores the all-null
payload; the previously known open 1 and close 2 are discarded, contrary
to the claimed merge-on-write (which would have kept `{open:1, close:2}`
since both new values are null). -/
theorem save_daily_prices_merge_cex :
    load_daily_prices
      (save_daily_prices
        (save_daily_prices ([] : List (Nat × List (Sym × Snap))) 0
          [("AAA", ⟨some 1, some 2⟩)])
        0 [("AAA", ⟨none, none⟩)]) 0 = some [("AAA", ⟨none, none⟩)] ∧
    load_daily_prices
      (save_daily_prices
        (save_daily_prices ([] : List (Nat × List (Sym × Snap))) 0
          [("AAA", ⟨some 1, some 2⟩)])
        0 [("AAA", ⟨none, none⟩)]) 0 ≠ some [("AAA", ⟨some 1, some 2⟩)] := by
  constructor
  · rfl
  · decide

/-- Claim C3 (amended): `save_daily_prices` has overwrite semantics: a
second put for the same date replaces the stored snapshot with the new
payload wholesale, whatever was stored before — null fields in the new
payload do not inherit previously known values. -/
theorem save_daily_prices_overwrites (store : List (Nat × α)) (d : Nat)
    (p1 p2 : α) :
    load_daily_prices (save_daily_prices (save_daily_prices store d p1) d p2) d
      = some p2 := by
  unfold save_daily_prices load_daily_prices
  rw [alookup_upsert_self]

/-! ## Claim C1: return computation and the zero buy price -/

/-- Claim C1 counterexample: a snapshot with `open = 0` and a non-null
close makes `compute_returns` raise `ZeroDivisionError`
(`(close_p - open_p) / open_p` with `open_p == 0`) instead of producing
the claimed null return. -/
theorem compute_returns_zero_open_raises :
    compute_returns [("AAA", ⟨some 0, some 5⟩)] = .error () ∧
    compute_returns [("AAA", ⟨some 0, some 5⟩)] ≠ .ok [("AAA", none)] := by
  constructor
  · rfl
  · intro h
    exact Except.noConfusion h

/-- Claim C1 (amended): whenever no symbol has a zero open paired with a
non-null close, `compute_returns` is total: per symbol the return is
`(close - open) / open` when both sides are non-null and null when
either side is null.  (With a zero open and non-null close the code
raises `ZeroDivisionError` instead — see the counterexample.) -/
theorem compute_returns_null_propagation (prices : List (Sym × Snap))
    (h : ∀ p ∈ prices, p.2.openP = some 0 → p.2.closeP = none) :
    compute_returns prices = .ok (prices.map (fun p => (p.1,
      match p.2.openP, p.2.closeP with
      | some open_p, some close_p => some ((close_p - open_p) / open_p)
      | _, _ => none))) := by
  induction prices with
  | nil => rfl
  | cons p rest ih =>
    have hp := h p (by simp)
    have hrest := ih (fun q hq => h q (by simp [hq]))
    rcases hopen : p.2.openP with _ | o <;> rcases hclose : p.2.closeP with _ | c <;>
      simp only [compute_returns, compute_return1, hopen, hclose, hrest, List.map_cons]
    have ho : ¬ o = 0 := by
      intro h0
      subst h0
      have := hp hopen
      rw [hclose] at this
      exact Option.noConfusion this
    simp [ho]

/-- Witness for C1: on `{AAA: {open:100, close:110}, BBB: {open:null,
close:5}, CCC: {open:7, close:null}}` the computation succeeds with
return `(110-100)/100` for AAA and null for BBB and CCC. -/
theorem compute_returns_null_propagation_witness :
    compute_returns [("AAA", ⟨some 100, some 110⟩), ("BBB", ⟨none, some 5⟩),
        ("CCC", ⟨some 7, none⟩)] =
      .ok [("AAA", some ((110 - 100) / 100)), ("BBB", none), ("CCC", none)] :=
  compute_returns_null_propagation _ (by decide)

/-! ## Claim C7: the week-final trading day -/

/-- Claim C7: `week_final_trading_day w` is none exactly when the 7-day
window starting at `w` has no trading day; otherwise it is the maximum
of `trading_days_in_week w`; and for a week start (a Monday) the
returned day satisfies `is_week_final_trading_day`. -/
theorem week_final_trading_day_spec (cal : Cal) (w : Nat) (hw : w % 7 = 0) :
    (week_final_trading_day cal w = none ↔
      ∀ k < 7, is_trading_day cal (w + k) = false) ∧
    ∀ d, week_final_trading_day cal w = some d →
      d ∈ trading_days_in_week cal w ∧
      (∀ x ∈ trading_days_in_week cal w, x ≤ d) ∧
      is_week_final_trading_day cal d = true := by
  constructor
  · rw [week_final_trading_day, List.max?_eq_none_iff]
    unfold trading_days_in_week
    rw [List.filter_eq_nil_iff]
    constructor
    · intro hnil k hk
      have := hnil (w + k)
        (List.mem_map.mpr ⟨k, List.mem_range.mpr hk, rfl⟩)
      simpa using this
    · intro hall a ha
      obtain ⟨k, hk, rfl⟩ := List.mem_map.mp ha
      simp [hall k (List.mem_range.mp hk)]
  · intro d hd
    have hmem : d ∈ trading_days_in_week cal w :=
      List.max?_mem (fun a b => max_choice a b) hd
    have hub : ∀ x ∈ trading_days_in_week cal w, x ≤ d :=
      (List.max?_le_iff (fun a b c => Nat.max_le) hd).mp (le_refl d)
    refine ⟨hmem, hub, ?_⟩
    obtain ⟨k, hk, rfl⟩ :
        ∃ k, k ∈ List.range 7 ∧ w + k = d := by
      have := List.mem_filter.mp hmem
      exact List.mem_map.mp this.1
    have hk7 : k < 7 := List.mem_range.mp hk
    have hws : week_start_for (w + k) = w := by
      unfold week_start_for weekday
      omega
    unfold is_week_final_trading_day
    rw [hws, hd]
    simp

/-- Witness for C7: with no holidays and no manual closures, the week
starting Monday day 0 has final trading day Friday day 4, which is a
member and the maximum of the trading days and is itself week-final. -/
theorem week_final_trading_day_spec_witness :
    4 ∈ trading_days_in_week (Cal.mk (fun _ => false) (fun _ => false)) 0 ∧
    (∀ x ∈ trading_days_in_week (Cal.mk (fun _ => false) (fun _ => false)) 0, x ≤ 4) ∧
    is_week_final_trading_day (Cal.mk (fun _ => false) (fun _ => false)) 4 = true :=
  (week_final_trading_day_spec (Cal.mk (fun _ => false) (fun _ => false)) 0
    (by decide)).2 4 (by decide)

/-! ## Claim C8: next_trading_day -/

/-- Claim C8 counterexample: with every date a holiday (a calendar with
an unbounded non-trading stretch) the scan has neither returned nor hit
any configuration fault after 31 — or 100 — loop iterations; the code
contains no bound at all, so on such data it loops forever rather than
failing after about 30 days as claimed. -/
theorem next_trading_day_no_bound_cex :
    next_trading_day_fuel (Cal.mk (fun _ => true) (fun _ => false)) 31 0 = none ∧
    next_trading_day_fuel (Cal.mk (fun _ => true) (fun _ => false)) 100 0 = none := by
  constructor <;> decide

/-- Claim C8 (amended): whenever some trading day lies at or after the
input (within `k` days), the scan terminates and returns the smallest
trading day that is at or after the input; the code imposes no bound on
the scan, and on a calendar with no trading day ahead it never
terminates (see the counterexample). -/
theorem next_trading_day_finds_smallest (cal : Cal) :
    ∀ (k d : Nat), is_trading_day cal (d + k) = true →
      ∃ r, next_trading_day_fuel cal (k + 1) d = some r ∧
        d ≤ r ∧ r ≤ d + k ∧ is_trading_day cal r = true ∧
        ∀ x, d ≤ x → x < r → is_trading_day cal x = false := by
  intro k
  induction k with
  | zero =>
    intro d hd
    refine ⟨d, ?_, le_refl d, by omega, by simpa using hd, fun x h1 h2 => by omega⟩
    simp only [next_trading_day_fuel]
    rw [if_pos (by simpa using hd)]
  | succ n ih =>
    intro d hd
    by_cases htd : is_trading_day cal d = true
    · refine ⟨d, ?_, le_refl d, by omega, htd, fun x h1 h2 => by omega⟩
      simp only [next_trading_day_fuel]
      rw [if_pos htd]
    · have hd' : is_trading_day cal ((d + 1) + n) = true := by
        have heq : d + (n + 1) = (d + 1) + n := by omega
        rwa [heq] at hd
      obtain ⟨r, hr, hge, hle, htr, hmin⟩ := ih (d + 1) hd'
      refine ⟨r, ?_, by omega, by omega, htr, ?_⟩
      · simp only [next_trading_day_fuel]
        rw [if_neg htd]
        exact hr
      · intro x hx1 hx2
        rcases Nat.eq_or_lt_of_le hx1 with heq | hgt
        · rw [← heq]
          exact Bool.not_eq_true _ ▸ (by simpa using htd)
        · exact hmin x (by omega) hx2

/-- Witness for C8: with no holidays, starting from Saturday day 5 the
scan (given 3 condition checks) returns Monday day 7, the smallest
trading day at or after day 5. -/
theorem next_trading_day_finds_smallest_witness :
    ∃ r, next_trading_day_fuel (Cal.mk (fun _ => false) (fun _ => false)) (2 + 1) 5 = some r ∧
      5 ≤ r ∧ r ≤ 5 + 2 ∧
      is_trading_day (Cal.mk (fun _ => false) (fun _ => false)) r = true ∧
      ∀ x, 5 ≤ x → x < r →
        is_trading_day (Cal.mk (fun _ => false) (fun _ => false)) x = false :=
  next_trading_day_finds_smallest (Cal.mk (fun _ => false) (fun _ => false)) 2 5 (by decide)

/-! ## Claim C6: the per-model average -/

theorem alookup_llm_avg_foldl_of_not_mem (returns : List (Sym × Option ℚ))
    (picks : List PickD) (acc : List (String × Option ℚ)) (k : String)
    (h : ∀ p ∈ picks, p.model ≠ k) :
    alookup (picks.foldl
      (fun per_model p => upsert per_model p.model (model_avg returns p.symbols)) acc) k
      = alookup acc k := by
  induction picks generalizing acc with
  | nil => rfl
  | cons q rest ih =>
    simp only [List.foldl_cons]
    rw [ih _ (fun p hp => h p (by simp [hp]))]
    exact alookup_upsert_ne _ _ _ _ (fun he => h q (by simp) he.symm)

theorem compute_llm_avg_go (returns : List (Sym × Option ℚ)) (p : PickD) :
    ∀ (picks : List PickD) (acc : List (String × Option ℚ)), p ∈ picks →
      (picks.map (fun q => q.model)).Nodup →
      alookup (picks.foldl
        (fun per_model q => upsert per_model q.model (model_avg returns q.symbols)) acc)
        p.model = some (model_avg returns p.symbols) := by
  intro picks
  induction picks with
  | nil => intro acc hp; exact absurd hp (List.not_mem_nil p)
  | cons q rest ih =>
    intro acc hp hn
    rw [List.map_cons, List.nodup_cons] at hn
    simp only [List.foldl_cons]
    rcases List.mem_cons.mp hp with rfl | hrest
    · rw [alookup_llm_avg_foldl_of_not_mem]
      · exact alookup_upsert_self _ _ _
      · intro r hr he
        exact hn.1 (he ▸ List.mem_map.mpr ⟨r, hr, rfl⟩)
    · exact ih _ hrest hn.2

/-- Claim C6: a model's average is the arithmetic mean of only the
defined per-symbol returns among its picks (undefined picks excluded,
never counted as zero), and is null — not 0 — when no pick has a
defined return. -/
theorem compute_llm_avg_defined_mean (picks : List PickD)
    (returns : List (Sym × Option ℚ)) (p : PickD) (hp : p ∈ picks)
    (hn : (picks.map (fun q => q.model)).Nodup) :
    alookup (compute_llm_avg picks returns) p.model =
      some (let vals := p.symbols.filterMap (fun s => getOptVal returns s)
            if vals.isEmpty then none else some (vals.sum / (vals.length : ℚ))) :=
  compute_llm_avg_go returns p picks [] hp hn

/-- Witness for C6 (the spec's example): picks `[AAA: 0.10, BBB: null]`
give average `0.10` — BBB is excluded rather than counted as zero. -/
theorem compute_llm_avg_defined_mean_witness :
    alookup (compute_llm_avg [⟨"m1", ["AAA", "BBB"]⟩]
        [("AAA", some (1 / 10)), ("BBB", none)]) "m1" =
      some (let vals := (["AAA", "BBB"] : List Sym).filterMap
              (fun s => getOptVal [("AAA", some ((1 : ℚ) / 10)), ("BBB", none)] s)
            if vals.isEmpty then none else some (vals.sum / (vals.length : ℚ))) :=
  compute_llm_avg_defined_mean [⟨"m1", ["AAA", "BBB"]⟩]
    [("AAA", some (1 / 10)), ("BBB", none)] ⟨"m1", ["AAA", "BBB"]⟩
    (by decide) (by decide)

/-! ## Claim C10: the monthly all-null filter -/

/-- Claim C10: a day is kept by the monthly filter exactly when it is in
the month's day map and at least one model value for it is non-null (so
a day whose every model value is null is excluded, and a day with some
non-null value is never dropped); and in a rendered row every null model
value shows as "N/A". -/
theorem monthly_all_null_filter (daily : List (Nat × List (String × Option ℚ)))
    (d : Nat) (row : List (String × Option ℚ)) (fmt : ℚ → String)
    (llms : List String) :
    ((d, row) ∈ filter_all_null daily ↔
      ((d, row) ∈ daily ∧ ∃ v ∈ row, v.2.isSome)) ∧
    (∀ i, (hi : i < llms.length) → getOptVal row (llms.get ⟨i, hi⟩) = none →
      (render_row fmt llms row)[i]? = some "N/A") := by
  constructor
  · unfold filter_all_null
    rw [List.mem_filter]
    simp [List.any_eq_true]
  · intro i hi hnull
    unfold render_row
    rw [List.getElem?_map, List.getElem?_eq_getElem hi]
    simp only [List.get_eq_getElem] at hnull
    simp [hnull]

/-- Witness for C10 (the spec's example): day 2 with values
`{a: 0.03, b: null}` is kept (day 1, all null, is not it), and the `b`
column of its rendered row is "N/A". -/
theorem monthly_all_null_filter_witness :
    ((2, [("a", some (3 : ℚ)), ("b", none)]) ∈
      filter_all_null [(1, [("a", none)]), (2, [("a", some (3 : ℚ)), ("b", none)])]) ∧
    (render_row (fun _ => "") ["a", "b"] [("a", some (3 : ℚ)), ("b", none)])[1]? =
      some "N/A" :=
  ⟨(monthly_all_null_filter [(1, [("a", none)]), (2, [("a", some (3 : ℚ)), ("b", none)])]
      2 [("a", some (3 : ℚ)), ("b", none)] (fun _ => "") ["a", "b"]).1.mpr
      ⟨by decide, by decide⟩,
   (monthly_all_null_filter [(1, [("a", none)]), (2, [("a", some (3 : ℚ)), ("b", none)])]
      2 [("a", some (3 : ℚ)), ("b", none)] (fun _ => "") ["a", "b"]).2 1
      (by decide) (by decide)⟩

/-! ## Claim C5: the monthly table is date-sorted with week-final flags -/

theorem mem_insSorted (x a : Nat) (l : List Nat) :
    a ∈ insSorted x l ↔ a = x ∨ a ∈ l := by
  induction l with
  | nil => simp [insSorted]
  | cons y ys ih =>
    by_cases h : x ≤ y
    · simp only [insSorted, if_pos h, List.mem_cons]
    · simp only [insSorted, if_neg h, List.mem_cons, ih]
      tauto

theorem sorted_insSorted (x : Nat) (l : List Nat) (h : l.Sorted (· ≤ ·)) :
    (insSorted x l).Sorted (· ≤ ·) := by
  induction l with
  | nil => simp [insSorted]
  | cons y ys ih =>
    rw [List.sorted_cons] at h
    by_cases hxy : x ≤ y
    · rw [insSorted, if_pos hxy, List.sorted_cons]
      refine ⟨?_, List.sorted_cons.mpr h⟩
      intro b hb
      rcases List.mem_cons.mp hb with rfl | hb'
      · exact hxy
      · exact le_trans hxy (h.1 b hb')
    · rw [insSorted, if_neg hxy, List.sorted_cons]
      refine ⟨?_, ih h.2⟩
      intro b hb
      rcases (mem_insSorted x b ys).mp hb with rfl | hb'
      · omega
      · exact h.1 b hb'

theorem sorted_sortKeys (l : List Nat) : (sortKeys l).Sorted (· ≤ ·) := by
  unfold sortKeys
  induction l with
  | nil => simp
  | cons x xs ih => exact sorted_insSorted x _ ih

theorem mem_sortKeys (l : List Nat) (a : Nat) : a ∈ sortKeys l ↔ a ∈ l := by
  unfold sortKeys
  induction l with
  | nil => simp
  | cons x xs ih => simp [mem_insSorted, ih]

theorem contains_week_finals (cal : Cal) (days : List Nat) (d : Nat)
    (hd : d ∈ days) :
    (week_finals_of cal days).contains d = is_week_final_trading_day cal d := by
  unfold week_finals_of
  cases hwf : is_week_final_trading_day cal d
  · rw [← Bool.not_eq_true, List.elem_iff]
    intro hmem
    have := (List.mem_filter.mp hmem).2
    rw [hwf] at this
    exact Bool.noConfusion this
  · rw [List.elem_iff]
    exact List.mem_filter.mpr ⟨hd, hwf⟩

/-- Claim C5: the monthly output table lists exactly the included days
sorted ascending by date, and each row's flag says whether that day was
a week-final trading day (the flag set itself is the source computation
of cli lines 171-178; the flagged table layout is modelled from the
spec, see `month_table`). -/
theorem month_table_sorted_flagged (cal : Cal)
    (filtered : List (Nat × List (String × Option ℚ))) :
    (List.Sorted (· ≤ ·)
      ((month_table filtered (week_finals_of cal (filtered.map (fun r => r.1)))).map
        (fun row => row.1))) ∧
    ((month_table filtered (week_finals_of cal (filtered.map (fun r => r.1)))).map
        (fun row => row.1)) = sortKeys (filtered.map (fun r => r.1)) ∧
    ∀ row ∈ month_table filtered (week_finals_of cal (filtered.map (fun r => r.1))),
      row.2 = is_week_final_trading_day cal row.1 := by
  have hmap : ((month_table filtered (week_finals_of cal (filtered.map (fun r => r.1)))).map
      (fun row => row.1)) = sortKeys (filtered.map (fun r => r.1)) := by
    unfold month_table
    rw [List.map_map]
    exact List.map_id _
  refine ⟨?_, hmap, ?_⟩
  · rw [hmap]
    exact sorted_sortKeys _
  · intro row hrow
    unfold month_table at hrow
    obtain ⟨dd, hd, rfl⟩ := List.mem_map.mp hrow
    exact contains_week_finals cal _ dd ((mem_sortKeys _ _).mp hd)

/-- Witness for C5: with no holidays, in a table holding days 4 and 2
the row of day 4 (Friday, the week's last trading day) carries flag
`true`, which indeed equals `is_week_final_trading_day` of day 4; its
membership in the sorted table `[(2, false), (4, true)]` is decided
concretely. -/
theorem month_table_sorted_flagged_witness :
    (((4 : Nat), true).2 : Bool) =
      is_week_final_trading_day (Cal.mk (fun _ => false) (fun _ => false))
        ((4 : Nat), true).1 :=
  (month_table_sorted_flagged (Cal.mk (fun _ => false) (fun _ => false))
    [(4, [("a", some (1 : ℚ))]), (2, [("a", some (2 : ℚ))])]).2.2
    (4, true) (by decide)

/-! ## Claim C4: failure isolation during multi-model prediction -/

/-- A demo LLM capability: model "a" answers with two symbols, every
other model with just one (fewer than maxPicks). -/
def gen_demo : String → Except String PickResp := fun m =>
  if m = "a" then .ok ⟨["7203.T", "6758.T"], ["r1", "r2"], ["f", "t"]⟩
  else .ok ⟨["9984.T"], ["r"], ["t"]⟩

/-- Claim C4 counterexample: requested alone, model a produces a valid
saved pick; requested together with model b (which returns fewer than
maxPicks symbols), the whole invocation aborts with b's error and
nothing — including a's valid pick — is saved. -/
theorem generate_llm_picks_abort_cex :
    generate_llm_picks gen_demo ["a"] =
      .ok [⟨"a", ["7203.T", "6758.T"], ["r1", "r2"], ["f", "t"]⟩] ∧
    generate_llm_picks gen_demo ["a", "b"] =
      .error "insufficient picks returned for b" := by
  constructor
  · rfl
  · rfl

theorem generate_llm_picks_go_ok_iff (gen : String → Except String PickResp) :
    ∀ (models : List String) (acc : List LlmPick),
      (∃ picks, generate_llm_picks_go gen models acc = .ok picks) ↔
        ∀ m ∈ models, ∃ resp, gen m = .ok resp ∧ 2 ≤ resp.symbols.length := by
  intro models
  induction models with
  | nil =>
    intro acc
    simp [generate_llm_picks_go]
  | cons m rest ih =>
    intro acc
    simp only [generate_llm_picks_go]
    cases hg : gen m with
    | error e =>
      constructor
      · rintro ⟨picks, hp⟩
        exact Except.noConfusion hp
      · intro hall
        obtain ⟨resp, hr, _⟩ := hall m (by simp)
        rw [hg] at hr
        exact Except.noConfusion hr
    | ok resp =>
      by_cases hlen : (resp.symbols.take 2).length < 2
      · simp only [if_pos hlen]
        constructor
        · rintro ⟨picks, hp⟩
          exact Except.noConfusion hp
        · intro hall
          obtain ⟨resp2, hr2, hlen2⟩ := hall m (by simp)
          rw [hg] at hr2
          injection hr2 with h2
          subst h2
          rw [List.length_take] at hlen
          omega
      · simp only [if_neg hlen]
        rw [ih _]
        constructor
        · intro hall m' hm'
          rcases List.mem_cons.mp hm' with rfl | hm''
          · refine ⟨resp, hg, ?_⟩
            rw [List.length_take] at hlen
            omega
          · exact hall m' hm''
        · intro hall m' hm'
          exact hall m' (by simp [hm'])

/-- Claim C4 (amended): there is no per-model failure isolation: the
multi-model generation returns (and then saves) picks iff every
requested model's call succeeds with at least maxPicks = 2 symbols; a
single model's failure (or short answer) turns the entire invocation
into an error, with no model's picks saved. -/
theorem generate_llm_picks_ok_iff (gen : String → Except String PickResp)
    (models : List String) :
    (∃ picks, generate_llm_picks gen models = .ok picks) ↔
      ∀ m ∈ models, ∃ resp, gen m = .ok resp ∧ 2 ≤ resp.symbols.length :=
  generate_llm_picks_go_ok_iff gen models []

/-- Witness for C4: with only model a requested (two symbols returned),
the invocation succeeds and yields saved picks. -/
theorem generate_llm_picks_ok_iff_witness :
    ∃ picks, generate_llm_picks gen_demo ["a"] = .ok picks :=
  (generate_llm_picks_ok_iff gen_demo ["a"]).mpr
    (by
      intro m hm
      rw [List.mem_singleton] at hm
      subst hm
      exact ⟨⟨["7203.T", "6758.T"], ["r1", "r2"], ["f", "t"]⟩, rfl, by decide⟩)

/-! ## Claim C2: buy-price resolution -/

theorem alookup_set_buy_some (b : List (Sym × Option ℚ)) (s : Sym) (v : ℚ)
    (w : Option ℚ) (h : alookup b s = some w) :
    alookup (set_buy b s v) s = some (some v) := by
  induction b with
  | nil => exact Option.noConfusion h
  | cons e rest ih =>
    by_cases he : e.1 = s
    · simp [set_buy, he, alookup]
    · rw [alookup, if_neg he] at h
      simp [set_buy, he, alookup, ih h]

theorem alookup_set_buy_ne (b : List (Sym × Option ℚ)) (s s' : Sym) (v : ℚ)
    (h : s' ≠ s) : alookup (set_buy b s v) s' = alookup b s' := by
  induction b with
  | nil => rfl
  | cons e rest ih =>
    by_cases he : e.1 = s
    · rw [set_buy, if_pos he, alookup, if_neg (fun hh : s = s' => h hh.symm),
        alookup, if_neg (fun hh : e.1 = s' => h (he.symm.trans hh).symm)]
    · rw [set_buy, if_neg he, alookup, alookup]
      by_cases he' : e.1 = s'
      · rw [if_pos he', if_pos he']
      · rw [if_neg he', if_neg he']
        exact ih

theorem alookup_mem [DecidableEq κ] (m : List (κ × β)) (k : κ) (v : β)
    (h : alookup m k = some v) : (k, v) ∈ m := by
  induction m with
  | nil => exact Option.noConfusion h
  | cons e rest ih =>
    by_cases he : e.1 = k
    · rw [alookup, if_pos he] at h
      injection h with h
      have he2 : e = (k, v) := by
        cases e
        simp_all
      rw [← he2]
      exact List.mem_cons_self _ _
    · rw [alookup, if_neg he] at h
      exact List.mem_cons.mpr (Or.inr (ih h))

theorem scan_day_preserve_some (day_prices : List (Sym × Snap)) (s : Sym) (v : ℚ) :
    ∀ (symbols : List Sym) (b : List (Sym × Option ℚ)),
      alookup b s = some (some v) →
      alookup (scan_day day_prices symbols b) s = some (some v) := by
  intro symbols
  induction symbols with
  | nil => intro b h; exact h
  | cons t rest ih =>
    intro b h
    rw [scan_day]
    by_cases ht : t = s
    · subst ht
      have hg : getOptVal b t = some v := by rw [getOptVal, h]
      rw [hg]
      simp only [Option.isNone_some, Bool.false_eq_true, if_false]
      exact ih b h
    · rcases hg : (getOptVal b t).isNone with _ | _
      · simp only [hg, Bool.false_eq_true, if_false]
        exact ih b h
      · simp only [hg, if_true]
        rcases hop : day_open day_prices t with _ | val
        · exact ih b h
        · refine ih _ ?_
          rw [alookup_set_buy_ne b t s val (fun hh : s = t => ht hh.symm)]
          exact h

theorem scan_day_not_mem (day_prices : List (Sym × Snap)) (s : Sym) :
    ∀ (symbols : List Sym) (b : List (Sym × Option ℚ)), s ∉ symbols →
      alookup (scan_day day_prices symbols b) s = alookup b s := by
  intro symbols
  induction symbols with
  | nil => intro b _; rfl
  | cons t rest ih =>
    intro b hs
    have hts : ¬ t = s := fun h => hs (by rw [h]; exact List.mem_cons_self _ _)
    rw [scan_day]
    have hrest : s ∉ rest := fun h => hs (List.mem_cons.mpr (Or.inr h))
    rcases hg : (getOptVal b t).isNone with _ | _
    · simp only [hg, Bool.false_eq_true, if_false]
      exact ih b hrest
    · simp only [hg, if_true]
      rcases hop : day_open day_prices t with _ | val
      · exact ih b hrest
      · rw [ih _ hrest, alookup_set_buy_ne b t s val (fun hh : s = t => hts hh.symm)]

theorem scan_day_resolve (day_prices : List (Sym × Snap)) (s : Sym) :
    ∀ (symbols : List Sym) (b : List (Sym × Option ℚ)), s ∈ symbols →
      alookup b s = some none →
      alookup (scan_day day_prices symbols b) s = some (day_open day_prices s) := by
  intro symbols
  induction symbols with
  | nil => intro b hs; exact absurd hs (List.not_mem_nil s)
  | cons t rest ih =>
    intro b hs hb
    rw [scan_day]
    by_cases ht : t = s
    · subst ht
      have hg : getOptVal b t = none := by rw [getOptVal, hb]
      rw [hg]
      simp only [Option.isNone_none, if_true]
      rcases hop : day_open day_prices t with _ | val
      · by_cases hmem : t ∈ rest
        · rw [ih b hmem hb, hop]
        · rw [scan_day_not_mem day_prices t rest b hmem, hb]
      · rw [scan_day_preserve_some day_prices t val rest _
          (alookup_set_buy_some b t val none hb)]
    · have hmem : s ∈ rest := by
        rcases List.mem_cons.mp hs with h | h
        · exact absurd h.symm ht
        · exact h
      rcases hg : (getOptVal b t).isNone with _ | _
      · simp only [hg, Bool.false_eq_true, if_false]
        exact ih b hmem hb
      · simp only [hg, if_true]
        rcases hop : day_open day_prices t with _ | val
        · exact ih b hmem hb
        · refine ih _ hmem ?_
          rw [alookup_set_buy_ne b t s val (fun hh : s = t => ht hh.symm)]
          exact hb

theorem fwbp_loop_preserve_some (store : PriceStore) (symbols : List Sym)
    (upto : Nat) (s : Sym) (v : ℚ) :
    ∀ (days : List Nat) (b : List (Sym × Option ℚ)),
      alookup b s = some (some v) →
      alookup (fwbp_loop store symbols upto days b) s = some (some v) := by
  intro days
  induction days with
  | nil => intro b h; exact h
  | cons d rest ih =>
    intro b h
    simp only [fwbp_loop]
    by_cases hd : upto < d
    · rw [if_pos hd]; exact h
    · rw [if_neg hd]
      have h1 := scan_day_preserve_some ((store d).getD []) s v symbols b h
      rcases hall : (scan_day ((store d).getD []) symbols b).all (fun e => e.2.isSome) with _ | _
      · simp only [hall, Bool.false_eq_true, if_false]
        exact ih _ h1
      · simp only [hall, if_true]
        exact h1

theorem fwbp_loop_resolve (store : PriceStore) (symbols : List Sym)
    (upto : Nat) (s : Sym) (hs : s ∈ symbols) :
    ∀ (days : List Nat) (b : List (Sym × Option ℚ)),
      alookup b s = some none →
      alookup (fwbp_loop store symbols upto days b) s =
        some ((days.takeWhile (fun d => d ≤ upto)).findSome?
          (fun d => day_open ((store d).getD []) s)) := by
  intro days
  induction days with
  | nil => intro b h; simpa using h
  | cons d rest ih =>
    intro b h
    simp only [fwbp_loop]
    by_cases hd : upto < d
    · rw [if_pos hd]
      have htw : List.takeWhile (fun x => decide (x ≤ upto)) (d :: rest) = [] := by
        rw [List.takeWhile_cons]
        simp [Nat.not_le.mpr hd]
      rw [htw]
      simpa using h
    · rw [if_neg hd]
      have hle : d ≤ upto := Nat.not_lt.mp hd
      have htw : List.takeWhile (fun x => decide (x ≤ upto)) (d :: rest) =
          d :: List.takeWhile (fun x => decide (x ≤ upto)) rest := by
        rw [List.takeWhile_cons]
        simp [hle]
      rw [htw]
      simp only [List.findSome?_cons]
      have h1 := scan_day_resolve ((store d).getD []) s symbols b hs h
      rcases hop : day_open ((store d).getD []) s with _ | val
      · rw [hop] at h1
        have hall : (scan_day ((store d).getD []) symbols b).all (fun e => e.2.isSome) = false := by
          rcases hall' : (scan_day ((store d).getD []) symbols b).all (fun e => e.2.isSome) with _ | _
          · rfl
          · have hmem := alookup_mem _ s none h1
            have := List.all_eq_true.mp hall' (s, none) hmem
            exact Bool.noConfusion this
        simp only [hall, Bool.false_eq_true, if_false]
        exact ih _ h1
      · rw [hop] at h1
        rcases hall : (scan_day ((store d).getD []) symbols b).all (fun e => e.2.isSome) with _ | _
        · simp only [hall, Bool.false_eq_true, if_false]
          exact fwbp_loop_preserve_some store symbols upto s val rest _ h1
        · simp only [hall, if_true]
          exact h1

theorem alookup_isSome_of_containsKey [DecidableEq κ] (m : List (κ × β)) (k : κ)
    (h : containsKey m k = true) : ∃ v, alookup m k = some v := by
  induction m with
  | nil => simp [containsKey] at h
  | cons e rest ih =>
    by_cases he : e.1 = k
    · exact ⟨e.2, by rw [alookup, if_pos he]⟩
    · have hr : containsKey rest k = true := by
        simp only [containsKey, List.any_cons, Bool.or_eq_true, decide_eq_true_eq] at h ⊢
        rcases h with h | h
        · exact absurd h he
        · exact h
      obtain ⟨v, hv⟩ := ih hr
      exact ⟨v, by rw [alookup, if_neg he]; exact hv⟩

theorem oe_none (f : Unit → Option α) : (none : Option α).orElse f = f () := rfl

theorem oe_some (a : α) (f : Unit → Option α) : (some a).orElse f = some a := rfl

theorem alookup_init_buys_go (s : Sym) :
    ∀ (symbols : List Sym) (acc : List (Sym × Option ℚ)),
      alookup (symbols.foldl
        (fun acc s => if containsKey acc s then acc else acc ++ [(s, none)]) acc) s =
        (alookup acc s).orElse
          (fun _ => if s ∈ symbols then some none else none) := by
  intro symbols
  induction symbols with
  | nil =>
    intro acc
    rcases h : alookup acc s with _ | v
    · rw [List.foldl_nil, h, oe_none]
      simp
    · rw [List.foldl_nil, h, oe_some]
  | cons t rest ih =>
    intro acc
    simp only [List.foldl_cons]
    by_cases hc : containsKey acc t
    · rw [if_pos hc, ih acc]
      rcases h : alookup acc s with _ | v
      · simp only [oe_none]
        by_cases hts : s = t
        · subst hts
          obtain ⟨v, hv⟩ := alookup_isSome_of_containsKey acc s hc
          rw [h] at hv
          exact Option.noConfusion hv
        · simp [List.mem_cons, hts]
      · simp only [oe_some]
    · rw [if_neg hc, ih _, alookup_append]
      rcases h : alookup acc s with _ | v
      · simp only [oe_none]
        by_cases hts : s = t
        · subst hts
          rw [show alookup [(s, (none : Option ℚ))] s = some none from by
            rw [alookup, if_pos rfl]]
          rw [oe_some]
          simp [List.mem_cons]
        · rw [show alookup [(t, (none : Option ℚ))] s = none from by
            rw [alookup, if_neg (fun hh : t = s => hts hh.symm)]
            rfl]
          rw [oe_none]
          simp [List.mem_cons, hts]
      · simp only [oe_some]

theorem alookup_init_buys (symbols : List Sym) (s : Sym) :
    alookup (init_buys symbols) s = if s ∈ symbols then some none else none := by
  unfold init_buys
  rw [alookup_init_buys_go]
  rfl

theorem takeWhile_eq_filter_le (upto : Nat) :
    ∀ (l : List Nat), l.Pairwise (· < ·) →
      l.takeWhile (fun d => d ≤ upto) = l.filter (fun d => d ≤ upto) := by
  intro l
  induction l with
  | nil => intro _; rfl
  | cons a l ih =>
    intro h
    rw [List.pairwise_cons] at h
    rw [List.takeWhile_cons, List.filter_cons]
    by_cases ha : a ≤ upto
    · rw [if_pos (by simpa using ha), if_pos (by simpa using ha), ih h.2]
    · rw [if_neg (by simpa using ha), if_neg (by simpa using ha)]
      symm
      rw [List.filter_eq_nil_iff]
      intro x hx
      simp only [decide_eq_true_eq]
      have := h.1 x hx
      omega

theorem pairwise_trading_days (cal : Cal) (w : Nat) :
    (trading_days_in_week cal w).Pairwise (· < ·) := by
  unfold trading_days_in_week
  apply List.Pairwise.sublist (List.filter_sublist _)
  exact List.Pairwise.map _ (fun a b hab => by omega) (List.pairwise_lt_range 7)

/-- Claim C2: the buy-price resolver refines the specified scan: for
every symbol in the request, the resolved buy price is the first
non-null open among the week's trading days not after the target date
in ascending order (kept once found, null when no such day has one),
and days after the target never contribute — the early exits of the
loop (`date > d` break, and the all-resolved break) do not change
this value. -/
theorem find_week_buy_prices_first_open (cal : Cal) (store : PriceStore)
    (symbols : List Sym) (week_start upto : Nat) (s : Sym) (hs : s ∈ symbols) :
    getOptVal (find_week_buy_prices cal store symbols week_start upto) s =
      buy_price_spec cal store s week_start upto := by
  unfold find_week_buy_prices buy_price_spec
  rw [← takeWhile_eq_filter_le upto _ (pairwise_trading_days cal week_start)]
  have hinit : alookup (init_buys symbols) s = some none := by
    rw [alookup_init_buys, if_pos hs]
  rw [getOptVal, fwbp_loop_resolve store symbols upto s hs _ _ hinit]

/-! ## Claim C9: idempotence of aggregate-daily -/

theorem month_art_snd (e : Env) (r : List (Nat × Payload))
    (avg : List (String × Option ℚ)) (b b' : Bool) :
    (month_art e r avg b).2 = (month_art e r avg b').2 := rfl

theorem month_art_fst_of_true (e : Env) (r : List (Nat × Payload))
    (avg : List (String × Option ℚ)) (b b' : Bool)
    (h : (month_art e r avg b).2 = true) :
    (month_art e r avg b').1 = (month_art e r avg b).1 := by
  unfold month_art at h ⊢
  dsimp only at h ⊢
  rw [h]
  simp only [Bool.true_or]

theorem contains_if_append (l : List Nat) (m : Nat) :
    (if l.contains m then l else l ++ [m]).contains m = true := by
  by_cases h : l.contains m = true
  · rw [if_pos h]
    exact h
  · rw [if_neg h]
    rw [List.elem_iff]
    exact List.mem_append.mpr (Or.inr (List.mem_singleton.mpr rfl))

theorem agg_writes_idem (e : Env) (avg : List (String × Option ℚ))
    (rps : List (Sym × (Option ℚ × Option ℚ))) (s : AggState) :
    agg_writes e avg rps (agg_writes e avg rps s) = agg_writes e avg rps s := by
  have e1 : agg_results e avg rps (agg_writes e avg rps s) = agg_results e avg rps s := by
    show upsert (agg_results e avg rps s) e.target (agg_payload e avg rps) =
      agg_results e avg rps s
    unfold agg_results
    exact upsert_idem _ _ _
  have e2 : agg_weekly e rps (agg_writes e avg rps s) = agg_weekly e rps s := by
    rw [show agg_weekly e rps (agg_writes e avg rps s) =
      (if is_week_final_trading_day e.cal e.target then
        upsert (agg_weekly e rps s) (week_start_for e.target) ⟨e.target, e.picks, rps⟩
      else agg_weekly e rps s) from rfl]
    by_cases h : is_week_final_trading_day e.cal e.target
    · rw [if_pos h]
      rw [show agg_weekly e rps s =
        upsert s.weekly (week_start_for e.target) ⟨e.target, e.picks, rps⟩ from by
          unfold agg_weekly
          rw [if_pos h]]
      exact upsert_idem _ _ _
    · rw [if_neg h]
  have hmaw : agg_ma e avg rps (agg_writes e avg rps s) =
      month_art e (agg_results e avg rps s) avg
        ((agg_writes e avg rps s).charts.contains (e.monthOf e.target)) := by
    unfold agg_ma
    rw [e1]
  have hsnd : (agg_ma e avg rps (agg_writes e avg rps s)).2 = (agg_ma e avg rps s).2 := by
    rw [hmaw]
    exact month_art_snd e _ avg _ _
  have hma : (agg_ma e avg rps (agg_writes e avg rps s)).1 = (agg_ma e avg rps s).1 := by
    cases hcw : (agg_ma e avg rps s).2 with
    | true =>
      rw [hmaw]
      exact month_art_fst_of_true e _ avg _ _ hcw
    | false =>
      have hch : (agg_writes e avg rps s).charts = s.charts := by
        show agg_charts e avg rps s = s.charts
        unfold agg_charts
        simp [hcw]
      rw [hmaw, hch]
      rfl
  have e4 : agg_charts e avg rps (agg_writes e avg rps s) = agg_charts e avg rps s := by
    rw [show agg_charts e avg rps (agg_writes e avg rps s) =
      (if (agg_ma e avg rps (agg_writes e avg rps s)).2 then
        (if (agg_writes e avg rps s).charts.contains (e.monthOf e.target) then
          (agg_writes e avg rps s).charts
         else (agg_writes e avg rps s).charts ++ [e.monthOf e.target])
       else (agg_writes e avg rps s).charts) from rfl]
    rw [hsnd]
    cases hcw : (agg_ma e avg rps s).2 with
    | false =>
      simp only [hcw, Bool.false_eq_true, if_false]
      show agg_charts e avg rps s = _
      unfold agg_charts
      simp [hcw]
    | true =>
      simp only [hcw, if_true]
      have hch : (agg_writes e avg rps s).charts =
          (if s.charts.contains (e.monthOf e.target) then s.charts
           else s.charts ++ [e.monthOf e.target]) := by
        show agg_charts e avg rps s = _
        unfold agg_charts
        simp only [hcw, if_true]
      rw [hch, if_pos]
      · rw [show agg_charts e avg rps s =
          (if s.charts.contains (e.monthOf e.target) then s.charts
           else s.charts ++ [e.monthOf e.target]) from by
            unfold agg_charts
            simp only [hcw, if_true]]
      · rw [show ((if s.charts.contains (e.monthOf e.target) then s.charts
            else s.charts ++ [e.monthOf e.target]).contains (e.monthOf e.target) = true) =
          ((if s.charts.contains (e.monthOf e.target) = true then s.charts
            else s.charts ++ [e.monthOf e.target]).contains (e.monthOf e.target) = true) from rfl]
        exact contains_if_append s.charts (e.monthOf e.target)
  calc agg_writes e avg rps (agg_writes e avg rps s)
      = ⟨agg_results e avg rps (agg_writes e avg rps s),
         agg_weekly e rps (agg_writes e avg rps s),
         upsert (agg_writes e avg rps s).monthly (e.monthOf e.target)
           (agg_ma e avg rps (agg_writes e avg rps s)).1,
         agg_charts e avg rps (agg_writes e avg rps s)⟩ := rfl
    _ = ⟨agg_results e avg rps s, agg_weekly e rps s,
         upsert s.monthly (e.monthOf e.target) (agg_ma e avg rps s).1,
         agg_charts e avg rps s⟩ := by
        rw [e1, e2, e4, hma]
        rw [show (agg_writes e avg rps s).monthly =
          upsert s.monthly (e.monthOf e.target) (agg_ma e avg rps s).1 from rfl]
        rw [upsert_idem]
    _ = agg_writes e avg rps s := rfl

/-- Claim C9: running aggregate-daily twice for the same date over the
same read-only inputs (picks, prices, calendar, environment) is
idempotent: the second run reproduces exactly the state the first run
left — the persisted daily result, week-final report, month chart and
month summary are all identical, so their rendered bytes (deterministic
functions of these structured values and of the read-only inputs) are
identical too. -/
theorem aggregate_daily_idem (e : Env) (s s1 : AggState)
    (h : aggregate_daily e s = .ok s1) : aggregate_daily e s1 = .ok s1 := by
  unfold aggregate_daily at h ⊢
  by_cases h1 : is_trading_day e.cal e.target = false
  · rw [if_pos h1] at h ⊢
  · rw [if_neg h1] at h ⊢
    cases hd : agg_data e with
    | error err =>
      rw [hd] at h
      exact Except.noConfusion h
    | ok ar =>
      rw [hd] at h
      dsimp only at h ⊢
      injection h with h
      rw [← h, agg_writes_idem]

/-- A small concrete environment for the C9 witness: one model ("gpt")
picking AAA and BBB, prices persisted for the Monday target day 0 only
(AAA opened 100 and closed 110, BBB has no data), one picks file. -/
def env_demo : Env :=
  ⟨Cal.mk (fun _ => false) (fun _ => false),
   fun d => d / 30,
   [⟨"gpt", ["AAA", "BBB"]⟩],
   [(0, [("gpt", [⟨"AAA", "r1", "f"⟩, ⟨"BBB", "r2", "t"⟩])])],
   (fun d => if d = 0 then some [("AAA", ⟨some 100, some 110⟩), ("BBB", ⟨none, none⟩)] else none),
   fun _ => none,
   0⟩

/-- Witness for C9: on the demo environment the first run from the empty
store succeeds, and the second run reproduces its final state exactly. -/
theorem aggregate_daily_idem_witness :
    (match aggregate_daily env_demo ⟨[], [], [], []⟩ with
     | .ok s1 => aggregate_daily env_demo s1 = .ok s1
     | .error _ => False) := by
  obtain ⟨s1, h⟩ : ∃ s1, aggregate_daily env_demo ⟨[], [], [], []⟩ = .ok s1 :=
    ⟨_, rfl⟩
  rw [h]
  exact aggregate_daily_idem env_demo ⟨[], [], [], []⟩ s1 h

/-- Demo price store for the C2 witness: AAA has no open on day 0, its
first open 50 appears on day 1 (and a later open 60 on day 2, which must
not win); BBB never has an open. -/
def store_demo : PriceStore := fun d =>
  if d = 0 then some [("AAA", ⟨none, none⟩)]
  else if d = 1 then some [("AAA", ⟨some 50, none⟩), ("BBB", ⟨none, none⟩)]
  else if d = 2 then some [("AAA", ⟨some 60, none⟩)]
  else none

/-- Witness for C2: resolving `["AAA", "BBB"]` for the week starting
Monday day 0 up to day 2 gives AAA the first available open, 50 from
day 1 (not day 2's 60), as the spec-side scan does. -/
theorem find_week_buy_prices_first_open_witness :
    getOptVal (find_week_buy_prices (Cal.mk (fun _ => false) (fun _ => false))
        store_demo ["AAA", "BBB"] 0 2) "AAA" =
      buy_price_spec (Cal.mk (fun _ => false) (fun _ => false)) store_demo "AAA" 0 2 ∧
    buy_price_spec (Cal.mk (fun _ => false) (fun _ => false)) store_demo "AAA" 0 2 =
      some 50 :=
  ⟨find_week_buy_prices_first_open (Cal.mk (fun _ => false) (fun _ => false))
      store_demo ["AAA", "BBB"] 0 2 "AAA" (by decide),
   by decide⟩

end LlmTrader
